import Mathlib

set_option maxRecDepth 10000

/-!
Verification development for the protoc-gen-frontend-api code generator.

The Go source (the current `main.go` of the repository) is shallowly embedded
below: every pure function of the generator is translated to a Lean function on
`String` and `List`, and the file-system effects of `clearOutputDir` and
`generateFrontendApi` are made explicit through a small `FS` state value whose
primitive operations model the documented behaviour of the Go standard library
calls `os.Stat`, `os.RemoveAll`, `os.MkdirAll` (file I/O primitives are external
collaborators of the generator).

Strings are handled at `Char`-list granularity where the Go code uses
`strings.Split` / `strings.SplitN` / `strings.TrimSpace`; all separators used by
the generator (',', ';', ':', '=') are single ASCII characters, so Go's
byte-oriented splitting coincides with character-level splitting, and Go's
`unicode.IsSpace` coincides with `Char.isWhitespace` on the ASCII inputs the
generator manipulates.
-/

/-! ## Character-level string utilities (models of the strings package calls) -/

/-- Model of Go `strings.SplitN (s, sep, 2)` for a single-character separator:
returns the text before the first occurrence of `c` together with
(`some` of) the text after it, or `none` when `c` does not occur. -/
def splitN2Char (c : Char) : List Char → List Char × Option (List Char)
  | [] => ([], none)
  | x :: xs =>
    if x = c then ([], some xs)
    else
      let r := splitN2Char c xs
      (x :: r.1, r.2)

/-- Model of Go `strings.SplitN (s, sep, 2)` on `String`s, single-character
separator: a one-element list when the separator is absent, otherwise the
two pieces around its first occurrence. -/
def splitN2 (c : Char) (s : String) : List String :=
  match splitN2Char c s.toList with
  | (p, none) => [String.mk p]
  | (p, some rest) => [String.mk p, String.mk rest]

/-- Model of Go `strings.Split (s, sep)` for a single-character separator.
`strings.Split` of the empty string yields `[""]`, matching the base case. -/
def splitOnChar (c : Char) : List Char → List (List Char)
  | [] => [[]]
  | x :: xs =>
    let r := splitOnChar c xs
    if x = c then [] :: r
    else
      match r with
      | [] => [[x]]
      | g :: gs => (x :: g) :: gs

/-- `String` version of `splitOnChar`. -/
def splitOnCharS (c : Char) (s : String) : List String :=
  (splitOnChar c s.toList).map String.mk

/-- Model of Go `strings.TrimSpace` on character lists: drop whitespace from
both ends. -/
def trimChars (l : List Char) : List Char :=
  ((l.dropWhile Char.isWhitespace).reverse.dropWhile Char.isWhitespace).reverse

/-- Model of Go `strings.TrimSpace` on `String`s. -/
def trimS (s : String) : String :=
  String.mk (trimChars s.toList)

/-- Model of Go `strings.TrimSuffix`: remove one trailing occurrence of `suf`
when present. -/
def trimSuffixS (s suf : String) : String :=
  if suf.toList.isSuffixOf s.toList then
    String.mk (s.toList.take (s.toList.length - suf.toList.length))
  else s

/-- Model of Go `strings.TrimPrefix`: remove one leading occurrence of `pre`
when present. -/
def trimPrefixS (s pre : String) : String :=
  if pre.toList.isPrefixOf s.toList then String.mk (s.toList.drop pre.toList.length)
  else s

/-- Model of Go `strings.ReplaceAll` for single-character needle and
replacement. -/
def replaceAllChar (a b : Char) (s : String) : String :=
  String.mk (s.toList.map (fun c => if c = a then b else c))

/-- Model of Go `strings.ToLower`; the generator only applies it to ASCII verb
names, where `Char.toLower` agrees with Go's case mapping. -/
def toLowerS (s : String) : String :=
  String.mk (s.toList.map Char.toLower)

/-- Model of Go `strings.HasSuffix`. -/
def hasSuffixS (s suf : String) : Bool :=
  suf.toList.isSuffixOf s.toList

/-- `toCamelCase` from the source: lower-case the first character (the Go code
lower-cases the first byte, identical for the ASCII identifiers involved). -/
def toCamelCase (s : String) : String :=
  match s.toList with
  | [] => s
  | c :: rest => String.mk (c.toLower :: rest)

/-- First-match lookup in an association list, modelling Go map indexing
`m[k]` once the concrete entry list is key-unique. -/
def lookupKey {β : Type} (m : List (String × β)) (k : String) : Option β :=
  match m with
  | [] => none
  | (k2, v) :: rest => if k = k2 then some v else lookupKey rest k

/-- Model of the Go map assignment `m[k] = v`: the new binding shadows and
replaces any previous binding of `k`. -/
def mapInsert {β : Type} (m : List (String × β)) (k : String) (v : β) : List (String × β) :=
  (k, v) :: m.filter (fun e => e.1 != k)

/-- Lexicographic comparison of character lists, the order Go's
`sort.Strings` / byte-wise string comparison induces on the ASCII identifiers
and paths the generator sorts. -/
def charsLe : List Char → List Char → Bool
  | [], _ => true
  | _ :: _, [] => false
  | a :: as, b :: bs => if a < b then true else if b < a then false else charsLe as bs

/-- Lexicographic string comparison (Go `s1 <= s2`). -/
def strLe (a b : String) : Prop :=
  charsLe a.toList b.toList = true

instance (a b : String) : Decidable (strLe a b) := by
  unfold strLe
  infer_instance

/-- Model of Go `sort.Strings`. -/
def sortStrings (l : List String) : List String :=
  List.insertionSort strLe l

/-- `uniqueAndSort` from the source: Go inserts the strings into a
`map[string]bool`, collects the keys and sorts them, i.e. it returns the
lexicographically sorted list of the distinct elements. -/
def uniqueAndSort (strs : List String) : List String :=
  sortStrings strs.dedup

/-- Model of `filepath.Join` for the simple relative directory paths the
generator receives (no trailing separators, no `..` cleaning involved). -/
def joinPath (dir name : String) : String :=
  dir ++ "/" ++ name

/-! ## Configuration data model and option parsing (`parsePluginOptions`,
`parseOutputPaths` from the source) -/

/-- `OutputPathConfig` from the source: an output directory plus an optional
per-path service import override (empty string means: use the global one). -/
structure OutputPathConfig where
  path : String
  serviceImport : String
deriving DecidableEq

/-- `PluginConfig` from the source. -/
structure PluginConfig where
  serviceImport : String
  serviceImportJS : String
  typesImportPath : String
  outputPaths : List OutputPathConfig
  outputPathsJS : List OutputPathConfig
deriving DecidableEq

/-- The configuration `parsePluginOptions` starts from: the documented
defaults with empty target lists. -/
def defaultPluginConfig : PluginConfig :=
  ⟨"./api", "", "@/api/proto-types", [], []⟩

/-- One loop iteration of `parseOutputPaths`: trim the entry, drop it when
empty, otherwise split at the first ':' into path and override. -/
def parseOutputEntry (pathStr0 : String) : Option OutputPathConfig :=
  let pathStr := trimS pathStr0
  if pathStr = "" then none
  else
    match splitN2 ':' pathStr with
    | [p, imp] => some ⟨trimS p, trimS imp⟩
    | _ => some ⟨pathStr, ""⟩

/-- `parseOutputPaths` from the source: split the value on ';' and parse each
entry, silently dropping empty ones. -/
def parseOutputPaths (value : String) : List OutputPathConfig :=
  (splitOnCharS ';' value).filterMap parseOutputEntry

/-- One loop iteration of `parsePluginOptions`: split a `key=value` pair at
the first '=' (`kv := SplitN (pair, "=", 2)`; pairs without '=' give
`len(kv) != 2` and are skipped), trim both sides and apply the recognized
keys; unknown keys leave the configuration unchanged. -/
def applyOption (config : PluginConfig) (pair : String) : PluginConfig :=
  let kv := splitN2 '=' pair
  if kv.length ≠ 2 then config
  else
    let key := trimS (kv.getD 0 "")
    let value := trimS (kv.getD 1 "")
    if key = "service_import" then { config with serviceImport := value }
    else if key = "service_import_js" then { config with serviceImportJS := value }
    else if key = "types_import_path" then { config with typesImportPath := value }
    else if key = "output_paths" then { config with outputPaths := parseOutputPaths value }
    else if key = "output_paths_js" then { config with outputPathsJS := parseOutputPaths value }
    else config

/-- `parsePluginOptions` from the source. The Go function's `error` result is
always nil, so the model is a total function. -/
def parsePluginOptions (param : String) : PluginConfig :=
  if param = "" then defaultPluginConfig
  else (splitOnCharS ',' param).foldl applyOption defaultPluginConfig

/-- Statement-side predicate: the pair assigns the recognized key `key`,
i.e. it splits at its first '=' into exactly two parts and the trimmed key
part equals `key` — the same key test `applyOption` performs. Used to state
which pairs of an option string touch a given configuration field. -/
def setsKey (key pair : String) : Bool :=
  let kv := splitN2 '=' pair
  if kv.length ≠ 2 then false
  else trimS (kv.getD 0 "") == key

/-! ## File-system model and `clearOutputDir`

The generator only observes the file system through `os.Stat` (existence),
`os.RemoveAll` and `os.MkdirAll`; `FS` records which directory and file paths
exist and the three primitives are modelled after the documented behaviour of
those calls (stat errors other than non-existence, and I/O failures of
remove/create, are outside the model). `os.MkdirAll` also creates missing
parent directories; parents are irrelevant to every property proved below and
are not tracked. -/

structure FS where
  dirs : List String
  files : List String
deriving DecidableEq

/-- A path equal to `dir` or lying strictly below it (`dir ++ "/"` prefix),
i.e. what `os.RemoveAll dir` erases. -/
def underOrEq (dir p : String) : Bool :=
  p == dir || (dir ++ "/").toList.isPrefixOf p.toList

/-- Model of `os.Stat` returning success: the path exists as a directory or a
file. -/
def statExists (fs : FS) (p : String) : Bool :=
  fs.dirs.contains p || fs.files.contains p

/-- Model of `os.RemoveAll dir`: erase the path and everything below it. -/
def removeAll (fs : FS) (dir : String) : FS :=
  ⟨fs.dirs.filter (fun p => !underOrEq dir p), fs.files.filter (fun p => !underOrEq dir p)⟩

/-- Model of `os.MkdirAll dir`: create the directory if absent (success when
it already exists). -/
def mkdirAll (fs : FS) (dir : String) : FS :=
  if fs.dirs.contains dir then fs else ⟨dir :: fs.dirs, fs.files⟩

/-- `clearOutputDir` from the source: no-op on the empty path and on a
non-existent directory; otherwise remove the directory with all contents and
recreate it empty. -/
def clearOutputDir (fs : FS) (dir : String) : FS :=
  if dir = "" then fs
  else if statExists fs dir then mkdirAll (removeAll fs dir) dir
  else fs

/-! ## HTTP rule extraction (`extractHttpRule` from the source) -/

/-- The `google.api.http` pattern oneof restricted to the five verb variants
the generator understands; the Go code reads it reflectively from the method
options. -/
inductive HttpPattern where
  | post (path : String)
  | get (path : String)
  | put (path : String)
  | delete (path : String)
  | patch (path : String)
deriving DecidableEq

/-- `HttpRule` from the source. -/
structure HttpRule where
  method : String
  path : String
deriving DecidableEq

/-- `extractHttpRule` from the source. `none` at the input models every
"unbound" shape the Go code degrades on: absent method options, absent HTTP
extension, or an unset `Pattern` field. A populated variant is returned as
its lower-case verb and verbatim path only when the path is non-empty
(`len(v.Post) > 0` etc.); otherwise the method stays unbound. -/
def extractHttpRule (pattern : Option HttpPattern) : Option HttpRule :=
  match pattern with
  | none => none
  | some (.post s) => if s.length > 0 then some ⟨"post", s⟩ else none
  | some (.get s) => if s.length > 0 then some ⟨"get", s⟩ else none
  | some (.put s) => if s.length > 0 then some ⟨"put", s⟩ else none
  | some (.delete s) => if s.length > 0 then some ⟨"delete", s⟩ else none
  | some (.patch s) => if s.length > 0 then some ⟨"patch", s⟩ else none

/-! ## Method descriptors and type-import collection -/

/-- The slice of a `protogen.Method` descriptor the generator reads: the
method name, the simple names of the request/response messages together with
the path of the proto file declaring each (`Desc.ParentFile().Path()`), and
the HTTP pattern of the method options. `protogen` guarantees `Input` and
`Output` are non-nil, so they are not optional here. -/
structure MethodDesc where
  name : String
  inputType : String
  inputFile : String
  outputType : String
  outputFile : String
  httpPattern : Option HttpPattern
deriving DecidableEq

/-- `MethodInfo` from the source. -/
structure MethodInfo where
  methodName : String
  httpPath : String
  httpMethod : String
  requestType : String
  responseType : String
deriving DecidableEq

/-- The method-extraction loop of `generateFrontendApi`: keep exactly the
methods with a usable HTTP rule, recording the lower-cased verb, the verbatim
path and the request/response type names. -/
def extractMethods (methods : List MethodDesc) : List MethodInfo :=
  methods.filterMap (fun m =>
    (extractHttpRule m.httpPattern).map (fun rule =>
      ⟨m.name, rule.path, toLowerS rule.method, m.inputType, m.outputType⟩))

/-- `protoFileToImportPath` from the source: strip the `.proto` extension and
a leading `./`, normalize path separators to '/'. -/
def protoFileToImportPath (protoFilePath : String) : String :=
  if protoFilePath = "" then ""
  else replaceAllChar '\\' '/' (trimPrefixS (trimSuffixS protoFilePath ".proto") "./")

/-- One iteration of the `typeFileMap` loop in `collectTypeImports`: for a
method whose name is in the bound set, record `typeName -> protoFilePath` for
the request type and then for the response type (later assignments
overwrite). -/
def typeFileStep (bnd : List String) (acc : List (String × String)) (meth : MethodDesc) :
    List (String × String) :=
  if bnd.contains meth.name then
    mapInsert (mapInsert acc meth.inputType meth.inputFile) meth.outputType meth.outputFile
  else acc

/-- The `typeFileMap` map of `collectTypeImports` after the scan over the
service's methods. `bnd` is the set of method names of the already-extracted
`methods` list (the Go `methodMap`). -/
def typeFileMap (methods : List MethodDesc) (bnd : List String) : List (String × String) :=
  methods.foldl (typeFileStep bnd) []

/-- The pairs `(typeName, protoFilePath)` recorded by the `typeFileMap` loop,
in scan order. -/
def typePairs (methods : List MethodDesc) (bnd : List String) : List (String × String) :=
  methods.foldr
    (fun meth acc =>
      if bnd.contains meth.name then
        (meth.inputType, meth.inputFile) :: (meth.outputType, meth.outputFile) :: acc
      else acc)
    []

/-- The sorted, deduplicated name list of one import group: all recorded type
names whose file resolves to import path `ip`, passed through
`uniqueAndSort` exactly as the per-group lists of `collectTypeImports` are. -/
def groupNames (tf : List (String × String)) (ip : String) : List String :=
  uniqueAndSort ((tf.filter (fun e => protoFileToImportPath e.2 == ip)).map Prod.fst)

/-- The import paths of the groups, empty paths skipped, in the sorted order
`generateTypeScriptCode` emits them. -/
def groupPaths (tf : List (String × String)) : List String :=
  uniqueAndSort ((tf.map (fun e => protoFileToImportPath e.2)).filter (fun p => p != ""))

/-- The import grouping as the canonical association list the render observes:
Go stores the groups in a hash map whose iteration order is unobservable
because `generateTypeScriptCode` sorts the keys and each group's name list is
`uniqueAndSort`ed; this definition is that sorted view. -/
def importGroups (tf : List (String × String)) : List (String × List String) :=
  (groupPaths tf).map (fun ip => (ip, groupNames tf ip))

/-- `collectTypeImports` from the source, producing the canonical sorted view
of the `importPath -> sortedTypeNames` map. -/
def collectTypeImports (methods : List MethodDesc) (bnd : List String) :
    List (String × List String) :=
  importGroups (typeFileMap methods bnd)

/-! ## Code rendering (`generateTypeScriptCode`, `generateJavaScriptCode`) -/

/-- `ServiceInfo` from the source; `typeImports` carries the canonical sorted
group list (see `importGroups`). -/
structure ServiceInfo where
  serviceName : String
  apiFileName : String
  methods : List MethodInfo
  serviceImport : String
  typesImportPath : String
  typeImports : List (String × List String)
deriving DecidableEq

/-- One typed object-literal entry (the per-method `buf.WriteString` sequence
of `generateTypeScriptCode`, without the separating comma). -/
def tsMethodEntry (m : MethodInfo) : String :=
  "  " ++ m.methodName ++ ": (data: " ++ m.requestType ++ "): Promise<" ++
    m.responseType ++ "> =>\n    service." ++ m.httpMethod ++ "(\x27" ++ m.httpPath ++
    "\x27, data)"

/-- One untyped object-literal entry of `generateJavaScriptCode`. -/
def jsMethodEntry (m : MethodInfo) : String :=
  "    " ++ m.methodName ++ ": (data) => service." ++ m.httpMethod ++ "(\x27" ++
    m.httpPath ++ "\x27, data)"

/-- The method loop shared by both renderers: entries separated by ",\n",
with "\n" (and no comma) after the last one. -/
def renderEntries (entry : MethodInfo → String) : List MethodInfo → String
  | [] => ""
  | [m] => entry m ++ "\n"
  | m :: ms => entry m ++ ",\n" ++ renderEntries entry ms

/-- The type-import block of `generateTypeScriptCode`: one `import type` line
per group, groups sorted by import path; a '/' is inserted between the types
root and the group path only when the root does not already end in '/' and
the group path is non-empty. -/
def typeImportLines (root : String) (groups : List (String × List String)) : String :=
  if groups.length > 0 then
    (sortStrings (groups.map Prod.fst)).foldl
      (fun buf ip =>
        let typeNames := (lookupKey groups ip).getD []
        let fullImportPath := (if hasSuffixS root "/" = false ∧ ip ≠ "" then root ++ "/" else root) ++ ip
        buf ++ "import type \x7b " ++ String.intercalate ", " typeNames ++ " \x7d from \x27" ++
          fullImportPath ++ "\x27;\n")
      ""
  else ""

/-- `generateTypeScriptCode` from the source. -/
def generateTypeScriptCode (data : ServiceInfo) : String :=
  "import service from \x27" ++ data.serviceImport ++ "\x27;\n" ++
    typeImportLines data.typesImportPath data.typeImports ++
    "\n" ++
    "export const " ++ data.apiFileName ++ " = \x7b\n" ++
    renderEntries tsMethodEntry data.methods ++
    "\x7d;\n\nexport default " ++ data.apiFileName ++ ";\n"

/-- `generateJavaScriptCode` from the source. -/
def generateJavaScriptCode (data : ServiceInfo) : String :=
  "import service from \x27" ++ data.serviceImport ++ "\x27;\n\n" ++
    "export const " ++ data.apiFileName ++ " = \x7b\n" ++
    renderEntries jsMethodEntry data.methods ++
    "\x7d;\n\nexport default " ++ data.apiFileName ++ ";\n"

/-! ## `generateFrontendApi` -/

/-- One file written by the generator: full path and rendered content. -/
structure RenderJob where
  path : String
  content : String
deriving DecidableEq

/-- `generateFrontendApi` from the source, as the list of files it writes for
one service (in write order). `os.Stat` on a target directory is answered by
the `fs` model; a non-existent target is silently skipped, exactly as the Go
code `continue`s on `os.IsNotExist`. Note the faithful early return: when
`config.OutputPaths` is empty the Go function returns before reaching the
`output_paths_js` loop, so no JS file is produced either. -/
def generateFrontendApi (fs : FS) (serviceDeclName : String) (methods : List MethodDesc)
    (config : PluginConfig) : List RenderJob :=
  let serviceName := trimSuffixS serviceDeclName "Service"
  let apiFileName := toCamelCase serviceName ++ "Api"
  let methodInfos := extractMethods methods
  if methodInfos = [] then []
  else
    let typeImports := collectTypeImports methods (methodInfos.map MethodInfo.methodName)
    let allOutputPaths := config.outputPaths
    if allOutputPaths = [] then []
    else
      let tsJobs := allOutputPaths.filterMap (fun opc =>
        let serviceImport := if opc.serviceImport = "" then config.serviceImport else opc.serviceImport
        let data : ServiceInfo :=
          ⟨serviceName, apiFileName, methodInfos, serviceImport, config.typesImportPath, typeImports⟩
        let code := generateTypeScriptCode data
        let fileName := toCamelCase serviceName ++ "Api.ts"
        if statExists fs opc.path then some ⟨joinPath opc.path fileName, code⟩ else none)
      let jsJobs := config.outputPathsJS.filterMap (fun opc =>
        let serviceImport0 := if opc.serviceImport = "" then config.serviceImportJS else opc.serviceImport
        let serviceImport := if serviceImport0 = "" then config.serviceImport else serviceImport0
        let data : ServiceInfo := ⟨serviceName, apiFileName, methodInfos, serviceImport, "", []⟩
        let code := generateJavaScriptCode data
        let fileName := toCamelCase serviceName ++ "Api.js"
        if statExists fs opc.path then some ⟨joinPath opc.path fileName, code⟩ else none)
      tsJobs ++ jsJobs

/-! ## Specification-side restatement of the list grammar (for the
refinement comparison of the `parseOutputPaths` claim) -/

/-- The list grammar as the specification words it for one entry: if the
entry contains the override delimiter ':', the text before the first ':' is
the path and everything after the first ':' is the override, both trimmed;
otherwise the whole (trimmed) entry is the path. -/
def specSplitEntry (e : String) : OutputPathConfig :=
  let cs := e.toList
  if cs.contains ':' then
    ⟨trimS (String.mk (cs.takeWhile (fun c => c != ':'))),
      trimS (String.mk ((cs.dropWhile (fun c => c != ':')).drop 1))⟩
  else ⟨String.mk cs, ""⟩

/-- The list grammar as the specification words it: entries separated by ';',
whitespace trimmed, empty entries dropped, each remaining entry split at its
first ':'. -/
def specParseOutputPaths (value : String) : List OutputPathConfig :=
  (((splitOnCharS ';' value).map trimS).filter (fun e => e != "")).map specSplitEntry

/-! ## Concrete scenario data (spec section 8) -/

/-- The `GetUser` method of `UserService`, bound to `post
/api/UserService/GetUser`, request and response types declared in
`proto/user/user.proto`. -/
def getUserMethod : MethodDesc :=
  ⟨"GetUser", "GetUserReq", "proto/user/user.proto", "GetUserResp", "proto/user/user.proto",
    some (.post "/api/UserService/GetUser")⟩

/-- The typed-flavor configuration of the concrete scenario. -/
def tsScenarioConfig : PluginConfig :=
  parsePluginOptions "service_import=@/api/api,output_paths=src/api,types_import_path=@/api/proto-types"

/-- A file system in which the typed target directory exists. -/
def tsScenarioFS : FS := ⟨["src/api"], []⟩

/-- The untyped-flavor-only configuration of the concrete scenario: no
`output_paths`, only `output_paths_js`. -/
def jsScenarioConfig : PluginConfig :=
  parsePluginOptions "output_paths_js=src/js,service_import_js=@/api/api.js"

/-- A file system in which the untyped target directory exists. -/
def jsScenarioFS : FS := ⟨["src/js"], []⟩

/-- The exact typed output text of the concrete scenario. -/
def expectedUserApiTS : String :=
  "import service from \x27@/api/api\x27;\nimport type \x7b GetUserReq, GetUserResp \x7d from \x27@/api/proto-types/proto/user/user\x27;\n\nexport const userApi = \x7b\n  GetUser: (data: GetUserReq): Promise<GetUserResp> =>\n    service.post(\x27/api/UserService/GetUser\x27, data)\n\x7d;\n\nexport default userApi;\n"

/-- Two methods whose request types share the simple name `Foo` but are
declared in different proto files: the collision scenario of the import
grouping. -/
def collideMethodA : MethodDesc :=
  ⟨"MethodA", "Foo", "a.proto", "ARes", "a.proto", some (.post "/a")⟩

/-- Companion of `collideMethodA`, declaring its `Foo` in `b.proto`. -/
def collideMethodB : MethodDesc :=
  ⟨"MethodB", "Foo", "b.proto", "BRes", "b.proto", some (.post "/b")⟩

/-- Key-uniqueness of an association list. -/
def nodupKeys {β : Type} (m : List (String × β)) : Prop :=
  (m.map Prod.fst).Nodup


/-! ## Lemmas: the lexicographic string order -/

theorem toList_mk (l : List Char) : (String.mk l).toList = l := rfl

theorem mk_toList (s : String) : String.mk s.toList = s := by
  cases s
  rfl

theorem charsLe_total : ∀ x y : List Char, charsLe x y = true ∨ charsLe y x = true
  | [], [] => Or.inl rfl
  | [], _ :: _ => Or.inl rfl
  | _ :: _, [] => Or.inr rfl
  | a :: as, b :: bs => by
    rcases lt_trichotomy a b with h | h | h
    · left
      simp [charsLe, h]
    · subst h
      rcases charsLe_total as bs with ih | ih
      · left
        simpa [charsLe, lt_irrefl] using ih
      · right
        simpa [charsLe, lt_irrefl] using ih
    · right
      simp [charsLe, h]

theorem charsLe_trans : ∀ x y z : List Char,
    charsLe x y = true → charsLe y z = true → charsLe x z = true
  | [], _, _, _, _ => rfl
  | _ :: _, [], _, hxy, _ => by simp [charsLe] at hxy
  | _ :: _, _ :: _, [], _, hyz => by simp [charsLe] at hyz
  | a :: as, b :: bs, c :: cs, hxy, hyz => by
    simp only [charsLe] at hxy hyz ⊢
    rcases lt_trichotomy a b with hab | hab | hab
    · rcases lt_trichotomy b c with hbc | hbc | hbc
      · simp [lt_trans hab hbc]
      · subst hbc
        simp [hab]
      · rw [if_neg (lt_asymm hbc), if_pos hbc] at hyz
        exact absurd hyz (by simp)
    · subst hab
      rcases lt_trichotomy a c with hac | hac | hac
      · simp [hac]
      · subst hac
        rw [if_neg (lt_irrefl a), if_neg (lt_irrefl a)] at hxy hyz ⊢
        exact charsLe_trans as bs cs hxy hyz
      · rw [if_neg (lt_asymm hac), if_pos hac] at hyz
        exact absurd hyz (by simp)
    · rw [if_neg (lt_asymm hab), if_pos hab] at hxy
      exact absurd hxy (by simp)

theorem charsLe_antisymm : ∀ x y : List Char,
    charsLe x y = true → charsLe y x = true → x = y
  | [], [], _, _ => rfl
  | [], _ :: _, _, hyx => by simp [charsLe] at hyx
  | _ :: _, [], hxy, _ => by simp [charsLe] at hxy
  | a :: as, b :: bs, hxy, hyx => by
    simp only [charsLe] at hxy hyx
    rcases lt_trichotomy a b with hab | hab | hab
    · rw [if_neg (lt_asymm hab), if_pos hab] at hyx
      exact absurd hyx (by simp)
    · subst hab
      rw [if_neg (lt_irrefl a), if_neg (lt_irrefl a)] at hxy hyx
      rw [charsLe_antisymm as bs hxy hyx]
    · rw [if_neg (lt_asymm hab), if_pos hab] at hxy
      exact absurd hxy (by simp)

theorem strLe_total (a b : String) : strLe a b ∨ strLe b a :=
  charsLe_total a.toList b.toList

theorem strLe_trans (a b c : String) : strLe a b → strLe b c → strLe a c :=
  charsLe_trans a.toList b.toList c.toList

theorem strLe_antisymm (a b : String) : strLe a b → strLe b a → a = b := by
  intro h1 h2
  have h := charsLe_antisymm a.toList b.toList h1 h2
  have := congrArg String.mk h
  rwa [mk_toList, mk_toList] at this

/-! ## Lemmas: `sortStrings` and `uniqueAndSort` produce the canonical
sorted duplicate-free list of the input's elements -/

theorem mem_sortStrings {a : String} {l : List String} : a ∈ sortStrings l ↔ a ∈ l :=
  (List.perm_insertionSort strLe l).mem_iff

theorem sorted_sortStrings (l : List String) : (sortStrings l).Sorted strLe := by
  letI : IsTotal String strLe := ⟨strLe_total⟩
  letI : IsTrans String strLe := ⟨strLe_trans⟩
  exact List.sorted_insertionSort strLe l

theorem nodup_sortStrings {l : List String} (h : l.Nodup) : (sortStrings l).Nodup :=
  (List.perm_insertionSort strLe l).symm.nodup h

theorem mem_uniqueAndSort {a : String} {l : List String} : a ∈ uniqueAndSort l ↔ a ∈ l := by
  rw [uniqueAndSort, mem_sortStrings, List.mem_dedup]

theorem nodup_uniqueAndSort (l : List String) : (uniqueAndSort l).Nodup :=
  nodup_sortStrings (List.nodup_dedup l)

theorem sorted_uniqueAndSort (l : List String) : (uniqueAndSort l).Sorted strLe :=
  sorted_sortStrings l.dedup

theorem uniqueAndSort_eq_of_mem_iff {l1 l2 : List String}
    (h : ∀ x, x ∈ l1 ↔ x ∈ l2) : uniqueAndSort l1 = uniqueAndSort l2 := by
  letI : IsAntisymm String strLe := ⟨strLe_antisymm⟩
  have hsub1 : uniqueAndSort l1 ⊆ uniqueAndSort l2 := by
    intro x hx
    rw [mem_uniqueAndSort] at hx ⊢
    exact (h x).mp hx
  have hsub2 : uniqueAndSort l2 ⊆ uniqueAndSort l1 := by
    intro x hx
    rw [mem_uniqueAndSort] at hx ⊢
    exact (h x).mpr hx
  have hperm : (uniqueAndSort l1).Perm (uniqueAndSort l2) :=
    ((nodup_uniqueAndSort l1).subperm hsub1).antisymm
      ((nodup_uniqueAndSort l2).subperm hsub2)
  exact List.eq_of_perm_of_sorted hperm (sorted_uniqueAndSort l1) (sorted_uniqueAndSort l2)


/-! ## Lemmas: association lists with overwrite-insert (the Go map model) -/

theorem lookupKey_nil {β : Type} (k : String) :
    lookupKey ([] : List (String × β)) k = none := rfl

theorem lookupKey_cons {β : Type} (k2 : String) (v : β) (rest : List (String × β)) (k : String) :
    lookupKey ((k2, v) :: rest) k = if k = k2 then some v else lookupKey rest k := rfl

theorem lookupKey_filter_ne {β : Type} (m : List (String × β)) (k n : String) (h : n ≠ k) :
    lookupKey (m.filter (fun e => e.1 != k)) n = lookupKey m n := by
  induction m with
  | nil => rfl
  | cons e rest ih =>
    cases e with
    | mk k2 v =>
      by_cases hek : k2 = k
      · have hb : ¬((fun (e : String × β) => e.1 != k) (k2, v)) = true := by simp [hek]
        rw [@List.filter_cons_of_neg _ (fun e => e.1 != k) (k2, v) rest hb]
        rw [ih, lookupKey_cons, if_neg (fun hnk2 => h (hnk2.trans hek))]
      · have hb : ((fun (e : String × β) => e.1 != k) (k2, v)) = true := by simp [hek]
        rw [@List.filter_cons_of_pos _ (fun e => e.1 != k) (k2, v) rest hb]
        rw [lookupKey_cons, lookupKey_cons]
        by_cases hnk : n = k2
        · rw [if_pos hnk, if_pos hnk]
        · rw [if_neg hnk, if_neg hnk, ih]

theorem lookupKey_mapInsert {β : Type} (m : List (String × β)) (k n : String) (v : β) :
    lookupKey (mapInsert m k v) n = if n = k then some v else lookupKey m n := by
  rw [mapInsert, lookupKey_cons]
  by_cases h : n = k
  · rw [if_pos h, if_pos h]
  · rw [if_neg h, if_neg h, lookupKey_filter_ne m k n h]

theorem nodupKeys_filter_ne {β : Type} (m : List (String × β)) (k : String)
    (h : nodupKeys m) : nodupKeys (m.filter (fun e => e.1 != k)) := by
  unfold nodupKeys at h ⊢
  have hsub : (m.filter (fun e => e.1 != k)).Sublist m := List.filter_sublist m
  exact (hsub.map Prod.fst).nodup h

theorem not_mem_keys_filter_self {β : Type} (m : List (String × β)) (k : String) :
    k ∉ (m.filter (fun e => e.1 != k)).map Prod.fst := by
  intro hmem
  rcases List.mem_map.mp hmem with ⟨e, he, hfst⟩
  have hne := (List.mem_filter.mp he).2
  rw [hfst] at hne
  simp at hne

theorem nodupKeys_mapInsert {β : Type} (m : List (String × β)) (k : String) (v : β)
    (h : nodupKeys m) : nodupKeys (mapInsert m k v) := by
  unfold nodupKeys mapInsert
  rw [List.map_cons]
  exact List.nodup_cons.mpr ⟨not_mem_keys_filter_self m k, nodupKeys_filter_ne m k h⟩

theorem lookupKey_eq_some_of_mem {β : Type} {m : List (String × β)} {k : String} {v : β}
    (hnd : nodupKeys m) (hmem : (k, v) ∈ m) : lookupKey m k = some v := by
  induction m with
  | nil => exact absurd hmem (List.not_mem_nil _)
  | cons e rest ih =>
    cases e with
    | mk k2 v2 =>
      have hnd' : (k2 :: rest.map Prod.fst).Nodup := hnd
      have hk2 : k2 ∉ rest.map Prod.fst := (List.nodup_cons.mp hnd').1
      have hrest : nodupKeys rest := (List.nodup_cons.mp hnd').2
      rcases List.mem_cons.mp hmem with heq | htail
      · rw [Prod.mk.injEq] at heq
        rw [lookupKey_cons, if_pos heq.1, heq.2]
      · rw [lookupKey_cons]
        by_cases hkk : k = k2
        · subst hkk
          exact absurd (List.mem_map.mpr ⟨(k, v), htail, rfl⟩) hk2
        · rw [if_neg hkk]
          exact ih hrest htail

theorem mem_of_lookupKey_eq_some {β : Type} {m : List (String × β)} {k : String} {v : β}
    (h : lookupKey m k = some v) : (k, v) ∈ m := by
  induction m with
  | nil => rw [lookupKey_nil] at h; exact absurd h (by simp)
  | cons e rest ih =>
    cases e with
    | mk k2 v2 =>
      rw [lookupKey_cons] at h
      by_cases hkk : k = k2
      · subst hkk
        rw [if_pos rfl] at h
        injection h with h2
        subst h2
        exact List.mem_cons_self _ _
      · rw [if_neg hkk] at h
        exact List.mem_cons.mpr (Or.inr (ih h))

theorem mem_iff_lookupKey {β : Type} {m : List (String × β)} (hnd : nodupKeys m)
    (k : String) (v : β) : (k, v) ∈ m ↔ lookupKey m k = some v :=
  ⟨lookupKey_eq_some_of_mem hnd, mem_of_lookupKey_eq_some⟩

/-! ## Lemmas: the `typeFileMap` scan of `collectTypeImports` -/

theorem typePairs_nil (bnd : List String) : typePairs [] bnd = [] := rfl

theorem typePairs_cons (m : MethodDesc) (ms : List MethodDesc) (bnd : List String) :
    typePairs (m :: ms) bnd =
      if bnd.contains m.name then
        (m.inputType, m.inputFile) :: (m.outputType, m.outputFile) :: typePairs ms bnd
      else typePairs ms bnd := rfl

theorem mem_typePairs_cons {x : String × String} {m : MethodDesc} {ms : List MethodDesc}
    {bnd : List String} :
    x ∈ typePairs (m :: ms) bnd ↔
      (bnd.contains m.name = true ∧
        (x = (m.inputType, m.inputFile) ∨ x = (m.outputType, m.outputFile))) ∨
      x ∈ typePairs ms bnd := by
  rw [typePairs_cons]
  by_cases hc : bnd.contains m.name
  · rw [if_pos hc]
    simp only [List.mem_cons, hc, true_and]
    tauto
  · rw [if_neg hc]
    constructor
    · exact fun h => Or.inr h
    · rintro (⟨hcc, _⟩ | h)
      · rw [hcc] at hc
        exact absurd rfl hc
      · exact h

theorem mem_typePairs {x : String × String} {ms : List MethodDesc} {bnd : List String} :
    x ∈ typePairs ms bnd ↔
      ∃ m ∈ ms, bnd.contains m.name = true ∧
        (x = (m.inputType, m.inputFile) ∨ x = (m.outputType, m.outputFile)) := by
  induction ms with
  | nil => simp [typePairs_nil]
  | cons m ms ih =>
    rw [mem_typePairs_cons, ih]
    constructor
    · rintro (⟨hc, hx⟩ | ⟨m', hm', hc', hx'⟩)
      · exact ⟨m, List.mem_cons_self m ms, hc, hx⟩
      · exact ⟨m', List.mem_cons.mpr (Or.inr hm'), hc', hx'⟩
    · rintro ⟨m', hm', hc', hx'⟩
      rcases List.mem_cons.mp hm' with heq | htail
      · subst heq
        exact Or.inl ⟨hc', hx'⟩
      · exact Or.inr ⟨m', htail, hc', hx'⟩

theorem typePairs_mem_iff_of_perm {ms1 ms2 : List MethodDesc} {bnd : List String}
    (hperm : ms1.Perm ms2) (x : String × String) :
    x ∈ typePairs ms1 bnd ↔ x ∈ typePairs ms2 bnd := by
  rw [mem_typePairs, mem_typePairs]
  constructor
  · rintro ⟨m, hm, hrest⟩
    exact ⟨m, hperm.mem_iff.mp hm, hrest⟩
  · rintro ⟨m, hm, hrest⟩
    exact ⟨m, hperm.mem_iff.mpr hm, hrest⟩

theorem typeFileMap_cons (m : MethodDesc) (ms : List MethodDesc) (bnd : List String)
    (acc : List (String × String)) :
    (m :: ms).foldl (typeFileStep bnd) acc = ms.foldl (typeFileStep bnd) (typeFileStep bnd acc m) :=
  rfl

theorem lookupKey_typeFileStep (bnd : List String) (acc : List (String × String))
    (m : MethodDesc) (n : String) :
    lookupKey (typeFileStep bnd acc m) n =
      if bnd.contains m.name then
        if n = m.outputType then some m.outputFile
        else if n = m.inputType then some m.inputFile
        else lookupKey acc n
      else lookupKey acc n := by
  unfold typeFileStep
  by_cases hc : bnd.contains m.name
  · rw [if_pos hc, if_pos hc, lookupKey_mapInsert, lookupKey_mapInsert]
  · rw [if_neg hc, if_neg hc]

theorem lookupKey_foldl_frame (bnd : List String) (ms : List MethodDesc) (n : String)
    (hn : ∀ f, (n, f) ∉ typePairs ms bnd) (acc : List (String × String)) :
    lookupKey (ms.foldl (typeFileStep bnd) acc) n = lookupKey acc n := by
  induction ms generalizing acc with
  | nil => rfl
  | cons m ms ih =>
    have hn' : ∀ f, (n, f) ∉ typePairs ms bnd := by
      intro f hf
      exact hn f (mem_typePairs_cons.mpr (Or.inr hf))
    rw [typeFileMap_cons, ih hn', lookupKey_typeFileStep]
    by_cases hc : bnd.contains m.name
    · rw [if_pos hc]
      have hout : n ≠ m.outputType := by
        intro heq
        exact hn m.outputFile (mem_typePairs_cons.mpr (Or.inl ⟨hc, Or.inr (by rw [heq])⟩))
      have hin : n ≠ m.inputType := by
        intro heq
        exact hn m.inputFile (mem_typePairs_cons.mpr (Or.inl ⟨hc, Or.inl (by rw [heq])⟩))
      rw [if_neg hout, if_neg hin]
    · rw [if_neg hc]

theorem lookupKey_foldl_sound (bnd : List String) (ms : List MethodDesc) (n : String)
    (f : String) (acc : List (String × String))
    (h : lookupKey (ms.foldl (typeFileStep bnd) acc) n = some f) :
    (n, f) ∈ typePairs ms bnd ∨ lookupKey acc n = some f := by
  induction ms generalizing acc with
  | nil => exact Or.inr h
  | cons m ms ih =>
    rw [typeFileMap_cons] at h
    rcases ih (typeFileStep bnd acc m) h with hmem | hacc
    · exact Or.inl (mem_typePairs_cons.mpr (Or.inr hmem))
    · rw [lookupKey_typeFileStep] at hacc
      by_cases hc : bnd.contains m.name
      · rw [if_pos hc] at hacc
        by_cases hout : n = m.outputType
        · rw [if_pos hout] at hacc
          injection hacc with hf
          exact Or.inl (mem_typePairs_cons.mpr
            (Or.inl ⟨hc, Or.inr (by rw [hout, hf])⟩))
        · rw [if_neg hout] at hacc
          by_cases hin : n = m.inputType
          · rw [if_pos hin] at hacc
            injection hacc with hf
            exact Or.inl (mem_typePairs_cons.mpr
              (Or.inl ⟨hc, Or.inl (by rw [hin, hf])⟩))
          · rw [if_neg hin] at hacc
            exact Or.inr hacc
      · rw [if_neg hc] at hacc
        exact Or.inr hacc

theorem lookupKey_foldl_complete (bnd : List String) (ms : List MethodDesc)
    (hfun : ∀ p ∈ typePairs ms bnd, ∀ q ∈ typePairs ms bnd, p.1 = q.1 → p.2 = q.2)
    (n : String) (f : String) (hmem : (n, f) ∈ typePairs ms bnd)
    (acc : List (String × String)) :
    lookupKey (ms.foldl (typeFileStep bnd) acc) n = some f := by
  induction ms generalizing acc with
  | nil => exact absurd hmem (by rw [typePairs_nil]; exact List.not_mem_nil _)
  | cons m ms ih =>
    have hfun' : ∀ p ∈ typePairs ms bnd, ∀ q ∈ typePairs ms bnd, p.1 = q.1 → p.2 = q.2 := by
      intro p hp q hq
      exact hfun p (mem_typePairs_cons.mpr (Or.inr hp)) q (mem_typePairs_cons.mpr (Or.inr hq))
    rw [typeFileMap_cons]
    by_cases htail : (n, f) ∈ typePairs ms bnd
    · exact ih hfun' htail (typeFileStep bnd acc m)
    · have hkey : ∀ g, (n, g) ∉ typePairs ms bnd := by
        intro g hg
        have : f = g :=
          hfun (n, f) hmem (n, g) (mem_typePairs_cons.mpr (Or.inr hg)) rfl
        rw [this] at htail
        exact htail hg
      rw [lookupKey_foldl_frame bnd ms n hkey, lookupKey_typeFileStep]
      rcases mem_typePairs_cons.mp hmem with ⟨hc, hx⟩ | hx
      · rw [if_pos hc]
        by_cases hout : n = m.outputType
        · rw [if_pos hout]
          have houtmem : (m.outputType, m.outputFile) ∈ typePairs (m :: ms) bnd :=
            mem_typePairs_cons.mpr (Or.inl ⟨hc, Or.inr rfl⟩)
          have : f = m.outputFile := by
            have := hfun (n, f) hmem (m.outputType, m.outputFile) houtmem (by rw [hout])
            simpa using this
          rw [this]
        · rw [if_neg hout]
          rcases hx with hxin | hxout
          · rw [Prod.mk.injEq] at hxin
            rw [if_pos hxin.1, hxin.2]
          · rw [Prod.mk.injEq] at hxout
            exact absurd hxout.1 hout
      · exact absurd hx htail

theorem nodupKeys_typeFileMap (methods : List MethodDesc) (bnd : List String) :
    nodupKeys (typeFileMap methods bnd) := by
  unfold typeFileMap
  have key : ∀ (ms : List MethodDesc) (acc : List (String × String)),
      nodupKeys acc → nodupKeys (ms.foldl (typeFileStep bnd) acc) := by
    intro ms
    induction ms with
    | nil => exact fun acc h => h
    | cons m ms ih =>
      intro acc hacc
      rw [typeFileMap_cons]
      apply ih
      unfold typeFileStep
      by_cases hc : bnd.contains m.name
      · rw [if_pos hc]
        exact nodupKeys_mapInsert _ _ _ (nodupKeys_mapInsert _ _ _ hacc)
      · rw [if_neg hc]
        exact hacc
  exact key methods [] (by unfold nodupKeys; simp)

theorem typeFileMap_mem_iff (ms : List MethodDesc) (bnd : List String)
    (hfun : ∀ p ∈ typePairs ms bnd, ∀ q ∈ typePairs ms bnd, p.1 = q.1 → p.2 = q.2)
    (x : String × String) : x ∈ typeFileMap ms bnd ↔ x ∈ typePairs ms bnd := by
  cases x with
  | mk n f =>
    rw [mem_iff_lookupKey (nodupKeys_typeFileMap ms bnd) n f]
    constructor
    · intro h
      rcases lookupKey_foldl_sound bnd ms n f [] h with hmem | habs
      · exact hmem
      · rw [lookupKey_nil] at habs
        exact absurd habs (by simp)
    · intro h
      exact lookupKey_foldl_complete bnd ms hfun n f h []

/-! ## Lemmas: import grouping -/

theorem mem_groupNames {tf : List (String × String)} {ip n : String} :
    n ∈ groupNames tf ip ↔ ∃ f, (n, f) ∈ tf ∧ protoFileToImportPath f = ip := by
  unfold groupNames
  rw [mem_uniqueAndSort]
  constructor
  · intro h
    rcases List.mem_map.mp h with ⟨e, he, hfst⟩
    have hmem := (List.mem_filter.mp he).1
    have hpath := (List.mem_filter.mp he).2
    rw [beq_iff_eq] at hpath
    exact ⟨e.2, by rw [← hfst]; exact hmem, hpath⟩
  · rintro ⟨f, hmem, hpath⟩
    exact List.mem_map.mpr ⟨(n, f),
      List.mem_filter.mpr ⟨hmem, by rw [beq_iff_eq]; exact hpath⟩, rfl⟩

theorem mem_groupPaths {tf : List (String × String)} {p : String} :
    p ∈ groupPaths tf ↔ (∃ e ∈ tf, protoFileToImportPath e.2 = p) ∧ p ≠ "" := by
  unfold groupPaths
  rw [mem_uniqueAndSort]
  constructor
  · intro h
    have hmem := (List.mem_filter.mp h).1
    have hne := (List.mem_filter.mp h).2
    rw [bne_iff_ne] at hne
    rcases List.mem_map.mp hmem with ⟨e, he, hpath⟩
    exact ⟨⟨e, he, hpath⟩, hne⟩
  · rintro ⟨⟨e, he, hpath⟩, hne⟩
    exact List.mem_filter.mpr ⟨List.mem_map.mpr ⟨e, he, hpath⟩, by rw [bne_iff_ne]; exact hne⟩

theorem groupNames_congr {tf1 tf2 : List (String × String)}
    (h : ∀ x, x ∈ tf1 ↔ x ∈ tf2) (ip : String) : groupNames tf1 ip = groupNames tf2 ip := by
  unfold groupNames
  apply uniqueAndSort_eq_of_mem_iff
  intro n
  constructor
  · intro hn
    rcases List.mem_map.mp hn with ⟨e, he, hfst⟩
    exact List.mem_map.mpr ⟨e, List.mem_filter.mpr
      ⟨(h e).mp (List.mem_filter.mp he).1, (List.mem_filter.mp he).2⟩, hfst⟩
  · intro hn
    rcases List.mem_map.mp hn with ⟨e, he, hfst⟩
    exact List.mem_map.mpr ⟨e, List.mem_filter.mpr
      ⟨(h e).mpr (List.mem_filter.mp he).1, (List.mem_filter.mp he).2⟩, hfst⟩

theorem groupPaths_congr {tf1 tf2 : List (String × String)}
    (h : ∀ x, x ∈ tf1 ↔ x ∈ tf2) : groupPaths tf1 = groupPaths tf2 := by
  unfold groupPaths
  apply uniqueAndSort_eq_of_mem_iff
  intro p
  constructor
  · intro hp
    rcases List.mem_filter.mp hp with ⟨hmem, hne⟩
    rcases List.mem_map.mp hmem with ⟨e, he, hpath⟩
    exact List.mem_filter.mpr ⟨List.mem_map.mpr ⟨e, (h e).mp he, hpath⟩, hne⟩
  · intro hp
    rcases List.mem_filter.mp hp with ⟨hmem, hne⟩
    rcases List.mem_map.mp hmem with ⟨e, he, hpath⟩
    exact List.mem_filter.mpr ⟨List.mem_map.mpr ⟨e, (h e).mpr he, hpath⟩, hne⟩

theorem importGroups_congr {tf1 tf2 : List (String × String)}
    (h : ∀ x, x ∈ tf1 ↔ x ∈ tf2) : importGroups tf1 = importGroups tf2 := by
  unfold importGroups
  rw [groupPaths_congr h]
  exact List.map_congr_left (fun ip _ => by rw [groupNames_congr h ip])

theorem fst_importGroups (tf : List (String × String)) :
    (importGroups tf).map Prod.fst = groupPaths tf := by
  unfold importGroups
  rw [List.map_map]
  have hcomp : (Prod.fst ∘ fun ip => (ip, groupNames tf ip)) = id := funext (fun _ => rfl)
  rw [hcomp, List.map_id]

theorem mem_importGroups {tf : List (String × String)} {g : String × List String}
    (h : g ∈ importGroups tf) : g.1 ∈ groupPaths tf ∧ g.2 = groupNames tf g.1 := by
  unfold importGroups at h
  rcases List.mem_map.mp h with ⟨ip, hip, hg⟩
  constructor
  · rw [← hg]
    exact hip
  · rw [← hg]

/-! ## Lemmas: `splitN2Char` against takeWhile/dropWhile, and `trimChars` -/

theorem splitN2Char_of_not_mem {c : Char} : ∀ {l : List Char}, c ∉ l →
    splitN2Char c l = (l, none)
  | [], _ => rfl
  | x :: xs, h => by
    have hx : ¬x = c := fun hxc => h (hxc ▸ List.mem_cons_self x xs)
    have hxs : c ∉ xs := fun hm => h (List.mem_cons.mpr (Or.inr hm))
    rw [splitN2Char, if_neg hx]
    rw [splitN2Char_of_not_mem hxs]

theorem splitN2Char_of_mem {c : Char} : ∀ {l : List Char}, c ∈ l →
    splitN2Char c l =
      (l.takeWhile (fun x => x != c), some ((l.dropWhile (fun x => x != c)).drop 1))
  | x :: xs, h => by
    by_cases hx : x = c
    · subst hx
      rw [splitN2Char, if_pos rfl]
      simp [List.takeWhile_cons, List.dropWhile_cons]
    · have hxs : c ∈ xs := by
        rcases List.mem_cons.mp h with heq | hm
        · exact absurd heq.symm hx
        · exact hm
      rw [splitN2Char, if_neg hx]
      rw [splitN2Char_of_mem hxs]
      simp [List.takeWhile_cons, List.dropWhile_cons, hx]

theorem splitN2Char_append_cons {c : Char} : ∀ {k : List Char}, c ∉ k → ∀ (rest : List Char),
    splitN2Char c (k ++ c :: rest) = (k, some rest)
  | [], _, rest => by rw [List.nil_append, splitN2Char, if_pos rfl]
  | x :: xs, h, rest => by
    have hx : ¬x = c := fun hxc => h (hxc ▸ List.mem_cons_self x xs)
    have hxs : c ∉ xs := fun hm => h (List.mem_cons.mpr (Or.inr hm))
    rw [List.cons_append, splitN2Char, if_neg hx]
    rw [splitN2Char_append_cons hxs rest]

theorem splitN2_of_not_mem {c : Char} {s : String} (h : c ∉ s.toList) :
    splitN2 c s = [s] := by
  unfold splitN2
  rw [splitN2Char_of_not_mem h]
  show [String.mk s.toList] = [s]
  rw [mk_toList]

theorem toList_append (s t : String) : (s ++ t).toList = s.toList ++ t.toList :=
  String.data_append s t

theorem splitN2_keyval {c : Char} {k : String} (h : c ∉ k.toList) (v : String) :
    splitN2 c (k ++ String.mk [c] ++ v) = [k, v] := by
  have htl : (k ++ String.mk [c] ++ v).toList = k.toList ++ c :: v.toList := by
    rw [toList_append, toList_append]
    show k.toList ++ [c] ++ v.toList = _
    rw [List.append_assoc, List.singleton_append]
  unfold splitN2
  rw [htl, splitN2Char_append_cons h v.toList]
  show [String.mk k.toList, String.mk v.toList] = [k, v]
  rw [mk_toList, mk_toList]

theorem dropWhile_head_false {α : Type} {p : α → Bool} :
    ∀ {l : List α} {a : α} {t : List α}, l.dropWhile p = a :: t → p a = false
  | [], a, t, h => by simp at h
  | x :: xs, a, t, h => by
    rw [List.dropWhile_cons] at h
    by_cases hx : p x = true
    · rw [if_pos hx] at h
      exact dropWhile_head_false h
    · rw [if_neg hx] at h
      injection h with h1 _
      subst h1
      cases hpx : p x with
      | false => rfl
      | true => exact absurd hpx hx

theorem trimChars_prefix (l : List Char) :
    ∃ s, l.dropWhile Char.isWhitespace = trimChars l ++ s := by
  rcases @List.dropWhile_suffix _ ((l.dropWhile Char.isWhitespace).reverse)
      Char.isWhitespace with ⟨t, ht⟩
  refine ⟨t.reverse, ?_⟩
  have hrev := congrArg List.reverse ht
  rw [List.reverse_append, List.reverse_reverse] at hrev
  exact hrev.symm

theorem head_trimChars_false {l : List Char} {a : Char} {t : List Char}
    (h : trimChars l = a :: t) : a.isWhitespace = false := by
  rcases trimChars_prefix l with ⟨s, hs⟩
  rw [h] at hs
  exact dropWhile_head_false (by rw [hs, List.cons_append])

theorem trimChars_eq_nil_iff {l : List Char} :
    trimChars l = [] ↔ ∀ c ∈ l, c.isWhitespace = true := by
  unfold trimChars
  constructor
  · intro h
    have h1 : (l.dropWhile Char.isWhitespace).reverse.dropWhile Char.isWhitespace = [] := by
      have := congrArg List.reverse h
      rwa [List.reverse_reverse, List.reverse_nil] at this
    have h2 : ∀ c ∈ (l.dropWhile Char.isWhitespace).reverse, c.isWhitespace = true :=
      List.dropWhile_eq_nil_iff.mp h1
    intro c hc
    rw [← @List.takeWhile_append_dropWhile _ Char.isWhitespace l] at hc
    rcases List.mem_append.mp hc with htake | hdrop
    · exact List.mem_takeWhile_imp htake
    · exact h2 c (List.mem_reverse.mpr hdrop)
  · intro h
    have h1 : l.dropWhile Char.isWhitespace = [] :=
      List.dropWhile_eq_nil_iff.mpr (fun x hx => h x hx)
    rw [h1]
    rfl

theorem trimChars_idem (l : List Char) : trimChars (trimChars l) = trimChars l := by
  rcases hm : trimChars l with _ | ⟨a, t⟩
  · rw [trimChars_eq_nil_iff.mpr (fun c hc => absurd hc (List.not_mem_nil c))]
  · have hhead : a.isWhitespace = false := head_trimChars_false hm
    rw [← hm]
    conv_lhs => rw [trimChars]
    have hdrop1 : (trimChars l).dropWhile Char.isWhitespace = trimChars l := by
      rw [hm, List.dropWhile_cons, hhead]
      simp
    rw [hdrop1]
    rcases hr : (trimChars l).reverse with _ | ⟨b, u⟩
    · have hnil : trimChars l = [] := by
        have := congrArg List.reverse hr
        rwa [List.reverse_reverse, List.reverse_nil] at this
      rw [hm] at hnil
      exact absurd hnil (by simp)
    · have hr' : (trimChars l).reverse =
          List.dropWhile Char.isWhitespace ((l.dropWhile Char.isWhitespace).reverse) := by
        rw [trimChars, List.reverse_reverse]
      have hb : b.isWhitespace = false := dropWhile_head_false (hr' ▸ hr)
      rw [List.dropWhile_cons, hb]
      rw [if_neg (show ¬(false = true) by simp)]
      rw [← hr, List.reverse_reverse]

theorem trimS_idem (s : String) : trimS (trimS s) = trimS s := by
  unfold trimS
  rw [toList_mk, trimChars_idem]

/-! ## Lemmas: `parseOutputPaths` against the specification grammar -/

theorem contains_iff_mem {α : Type} [BEq α] [LawfulBEq α] (l : List α) (a : α) :
    l.contains a = true ↔ a ∈ l :=
  List.elem_iff

theorem filterMap_eq_map_filter_map {α β : Type} (f : α → Option β) (t : α → α)
    (p : α → Bool) (g : α → β)
    (h : ∀ e, f e = if p (t e) then some (g (t e)) else none) :
    ∀ l : List α, l.filterMap f = ((l.map t).filter p).map g := by
  intro l
  induction l with
  | nil => rfl
  | cons e rest ih =>
    rw [List.filterMap_cons, List.map_cons, List.filter_cons]
    by_cases hp : p (t e) = true
    · rw [h e, if_pos hp, if_pos hp, List.map_cons, ih]
    · rw [h e, if_neg hp, if_neg hp, ih]

theorem parseOutputEntry_eq_spec (e : String) :
    parseOutputEntry e =
      if (trimS e != "") then some (specSplitEntry (trimS e)) else none := by
  unfold parseOutputEntry specSplitEntry
  by_cases he : trimS e = ""
  · rw [if_pos he, if_neg (by rw [he]; simp)]
  · rw [if_neg he, if_pos (by rw [bne_iff_ne]; exact he)]
    by_cases hc : ':' ∈ (trimS e).toList
    · have hcont : (trimS e).toList.contains ':' = true :=
        (contains_iff_mem _ _).mpr hc
      rw [if_pos hcont]
      unfold splitN2
      rw [splitN2Char_of_mem hc]
    · have hcont : ¬(trimS e).toList.contains ':' = true := by
        rw [contains_iff_mem]
        exact hc
      rw [if_neg hcont, splitN2_of_not_mem hc, mk_toList]

theorem parseOutputPaths_eq_spec (value : String) :
    parseOutputPaths value = specParseOutputPaths value := by
  unfold parseOutputPaths specParseOutputPaths
  exact filterMap_eq_map_filter_map parseOutputEntry trimS (fun e => e != "")
    specSplitEntry parseOutputEntry_eq_spec (splitOnCharS ';' value)

/-! ## Lemmas: filter idempotence (for the directory reset) -/

theorem filter_idem {α : Type} (p : α → Bool) (l : List α) :
    (l.filter p).filter p = l.filter p := by
  rw [List.filter_filter]
  have h : (fun a => p a && p a) = p := funext (fun a => Bool.and_self (p a))
  rw [h]

/-! ## Lemmas: option-parser behaviour (`applyOption`, `parsePluginOptions`) -/

theorem applyOption_no_eq {c : PluginConfig} {pair : String} (h : '=' ∉ pair.toList) :
    applyOption c pair = c := by
  unfold applyOption
  rw [splitN2_of_not_mem h]
  simp

theorem applyOption_two {c : PluginConfig} {pair k v : String}
    (hsplit : splitN2 '=' pair = [k, v]) :
    applyOption c pair =
      (if trimS k = "service_import" then { c with serviceImport := trimS v }
       else if trimS k = "service_import_js" then { c with serviceImportJS := trimS v }
       else if trimS k = "types_import_path" then { c with typesImportPath := trimS v }
       else if trimS k = "output_paths" then { c with outputPaths := parseOutputPaths (trimS v) }
       else if trimS k = "output_paths_js" then
         { c with outputPathsJS := parseOutputPaths (trimS v) }
       else c) := by
  unfold applyOption
  rw [hsplit]
  simp

theorem applyOption_unknown {c : PluginConfig} {pair k v : String}
    (hsplit : splitN2 '=' pair = [k, v])
    (h1 : trimS k ≠ "service_import") (h2 : trimS k ≠ "service_import_js")
    (h3 : trimS k ≠ "types_import_path") (h4 : trimS k ≠ "output_paths")
    (h5 : trimS k ≠ "output_paths_js") :
    applyOption c pair = c := by
  rw [applyOption_two hsplit, if_neg h1, if_neg h2, if_neg h3, if_neg h4, if_neg h5]

theorem applyOption_service_import {c : PluginConfig} {pair k v : String}
    (hsplit : splitN2 '=' pair = [k, v]) (hk : trimS k = "service_import") :
    applyOption c pair = { c with serviceImport := trimS v } := by
  rw [applyOption_two hsplit, if_pos hk]

theorem applyOption_service_import_js {c : PluginConfig} {pair k v : String}
    (hsplit : splitN2 '=' pair = [k, v]) (hk : trimS k = "service_import_js") :
    applyOption c pair = { c with serviceImportJS := trimS v } := by
  rw [applyOption_two hsplit, hk]
  rw [if_neg (by decide), if_pos rfl]

theorem applyOption_types_import_path {c : PluginConfig} {pair k v : String}
    (hsplit : splitN2 '=' pair = [k, v]) (hk : trimS k = "types_import_path") :
    applyOption c pair = { c with typesImportPath := trimS v } := by
  rw [applyOption_two hsplit, hk]
  rw [if_neg (by decide), if_neg (by decide), if_pos rfl]

theorem applyOption_output_paths {c : PluginConfig} {pair k v : String}
    (hsplit : splitN2 '=' pair = [k, v]) (hk : trimS k = "output_paths") :
    applyOption c pair = { c with outputPaths := parseOutputPaths (trimS v) } := by
  rw [applyOption_two hsplit, hk]
  rw [if_neg (by decide), if_neg (by decide), if_neg (by decide), if_pos rfl]

theorem applyOption_output_paths_js {c : PluginConfig} {pair k v : String}
    (hsplit : splitN2 '=' pair = [k, v]) (hk : trimS k = "output_paths_js") :
    applyOption c pair = { c with outputPathsJS := parseOutputPaths (trimS v) } := by
  rw [applyOption_two hsplit, hk]
  rw [if_neg (by decide), if_neg (by decide), if_neg (by decide), if_neg (by decide),
    if_pos rfl]

theorem applyOption_frame (c : PluginConfig) (pair : String) :
    (setsKey "service_import" pair = false →
      (applyOption c pair).serviceImport = c.serviceImport) ∧
    (setsKey "service_import_js" pair = false →
      (applyOption c pair).serviceImportJS = c.serviceImportJS) ∧
    (setsKey "types_import_path" pair = false →
      (applyOption c pair).typesImportPath = c.typesImportPath) ∧
    (setsKey "output_paths" pair = false →
      (applyOption c pair).outputPaths = c.outputPaths) ∧
    (setsKey "output_paths_js" pair = false →
      (applyOption c pair).outputPathsJS = c.outputPathsJS) := by
  by_cases hlen : (splitN2 '=' pair).length = 2
  case neg =>
    have happ : applyOption c pair = c := by
      unfold applyOption
      simp [hlen]
    rw [happ]
    exact ⟨fun _ => rfl, fun _ => rfl, fun _ => rfl, fun _ => rfl, fun _ => rfl⟩
  case pos =>
    rcases hs : splitN2 '=' pair with _ | ⟨k, _ | ⟨v, _ | ⟨w, rest⟩⟩⟩
    · rw [hs] at hlen
      simp at hlen
    · rw [hs] at hlen
      simp at hlen
    · have hset : ∀ key, setsKey key pair = (trimS k == key) := by
        intro key
        unfold setsKey
        rw [hs]
        simp
      rw [applyOption_two hs]
      refine ⟨?_, ?_, ?_, ?_, ?_⟩
      all_goals
        intro hkey
        rw [hset] at hkey
        have hne := beq_eq_false_iff_ne.mp hkey
        split_ifs <;> simp_all
    · rw [hs] at hlen
      simp at hlen

theorem foldl_applyOption_frame {α : Type} (F : PluginConfig → α) (key : String)
    (hF : ∀ (c : PluginConfig) (pair : String), setsKey key pair = false →
      F (applyOption c pair) = F c) :
    ∀ (qs : List String), (∀ q ∈ qs, setsKey key q = false) →
      ∀ c, F (qs.foldl applyOption c) = F c := by
  intro qs
  induction qs with
  | nil => exact fun _ _ => rfl
  | cons q rest ih =>
    intro hq c
    rw [List.foldl_cons, ih (fun x hx => hq x (List.mem_cons.mpr (Or.inr hx))),
      hF c q (hq q (List.mem_cons_self q rest))]

/-! ## Lemmas: helpers on strings -/

theorem length_pos_of_ne_empty {s : String} (h : s ≠ "") : s.length > 0 := by
  have hd : s.toList ≠ [] := by
    intro hnil
    exact h (String.ext hnil)
  exact List.length_pos.mpr hd

theorem trimS_eq_empty_iff {l : List Char} :
    trimS (String.mk l) = "" ↔ trimChars l = [] := by
  unfold trimS
  rw [toList_mk]
  constructor
  · intro h
    have := congrArg String.toList h
    rwa [toList_mk] at this
  · intro h
    rw [h]

theorem head_of_trimS_ne {s : String} (h : trimS s ≠ "") :
    ∃ x rest, (trimS s).toList = x :: rest ∧ x.isWhitespace = false := by
  rcases htc : trimChars s.toList with _ | ⟨x, r⟩
  · exfalso
    apply h
    unfold trimS
    rw [htc]
  · refine ⟨x, r, ?_, head_trimChars_false htc⟩
    unfold trimS
    rw [toList_mk, htc]

/-! ## Claim theorems -/

/-- Claim C2: for `UserService` with the single method `GetUser` bound to
`post /api/UserService/GetUser`, request/response types `GetUserReq` and
`GetUserResp` from `proto/user/user.proto`, and configuration
`service_import=@/api/api,output_paths=src/api,types_import_path=@/api/proto-types`,
the typed renderer produces exactly `src/api/userApi.ts` with the exact text
`expectedUserApiTS`: default import from `@/api/api`, one type-only import of
`GetUserReq, GetUserResp` from `@/api/proto-types/proto/user/user`, a blank
line, the `userApi` object with the single `GetUser` entry and no trailing
comma, and the default export. -/
theorem c2_typed_render_exact :
    generateFrontendApi tsScenarioFS "UserService" [getUserMethod] tsScenarioConfig =
      [⟨"src/api/userApi.ts", expectedUserApiTS⟩] := by decide

/-- Claim C1 (code evaluation at the failing input): with the untyped-only
configuration `output_paths_js=src/js,service_import_js=@/api/api.js` (no
`output_paths`), a file system in which `src/js` exists, and the bound
`GetUser` method, `generateFrontendApi` produces no render job at all — the
early return on the empty typed target list fires before the untyped loop, so
the promised `src/js/userApi.js` is never written. -/
theorem c1_js_only_config_renders_nothing :
    jsScenarioConfig.outputPaths = [] ∧
    jsScenarioConfig.outputPathsJS = [⟨"src/js", ""⟩] ∧
    statExists jsScenarioFS "src/js" = true ∧
    extractMethods [getUserMethod] ≠ [] ∧
    generateFrontendApi jsScenarioFS "UserService" [getUserMethod] jsScenarioConfig = [] := by
  decide

/-- Claim C3: `extractHttpRule` returns `none` for a method without a usable
HTTP annotation (no annotation / unset pattern, modelled by `none`); for each
of the five verb variants populated with a non-empty path it returns exactly
that lower-case verb paired with the verbatim path; a populated variant with
an empty path yields `none`. -/
theorem c3_extractHttpRule_cases :
    extractHttpRule none = none ∧
    (∀ s : String, s ≠ "" →
      extractHttpRule (some (.post s)) = some ⟨"post", s⟩ ∧
      extractHttpRule (some (.get s)) = some ⟨"get", s⟩ ∧
      extractHttpRule (some (.put s)) = some ⟨"put", s⟩ ∧
      extractHttpRule (some (.delete s)) = some ⟨"delete", s⟩ ∧
      extractHttpRule (some (.patch s)) = some ⟨"patch", s⟩) ∧
    extractHttpRule (some (.post "")) = none ∧
    extractHttpRule (some (.get "")) = none ∧
    extractHttpRule (some (.put "")) = none ∧
    extractHttpRule (some (.delete "")) = none ∧
    extractHttpRule (some (.patch "")) = none := by
  refine ⟨rfl, ?_, by decide, by decide, by decide, by decide, by decide⟩
  intro s hs
  have hp : s.length > 0 := length_pos_of_ne_empty hs
  refine ⟨?_, ?_, ?_, ?_, ?_⟩ <;> simp [extractHttpRule, hp]

/-- Witness for C3 at the concrete path "/x". -/
theorem c3_extractHttpRule_cases_witness :
    extractHttpRule (some (.post "/x")) = some ⟨"post", "/x"⟩ :=
  (c3_extractHttpRule_cases.2.1 "/x" (by decide)).1

/-- Claim C9: a service none of whose methods has a usable HTTP binding
produces no output file in any target directory, for either flavor. -/
theorem c9_unbound_service_renders_nothing :
    ∀ (fs : FS) (serviceDeclName : String) (methods : List MethodDesc)
      (config : PluginConfig),
      (∀ m ∈ methods, extractHttpRule m.httpPattern = none) →
      generateFrontendApi fs serviceDeclName methods config = [] := by
  intro fs svc methods config h
  have hext : extractMethods methods = [] := by
    rw [extractMethods, List.filterMap_eq_nil_iff]
    intro m hm
    rw [h m hm]
    rfl
  simp [generateFrontendApi, hext]

/-- Witness for C9: a concrete annotation-free method under the typed
scenario configuration yields no output. -/
theorem c9_unbound_service_renders_nothing_witness :
    generateFrontendApi tsScenarioFS "UserService"
      [⟨"NoBind", "X", "x.proto", "Y", "x.proto", none⟩] tsScenarioConfig = [] :=
  c9_unbound_service_renders_nothing tsScenarioFS "UserService"
    [⟨"NoBind", "X", "x.proto", "Y", "x.proto", none⟩] tsScenarioConfig (by decide)

/-- Claim C5: the list grammar. Concretely, `"a;b:@/x;c"` parses to the three
targets `(a, "")`, `(b, "@/x")`, `(c, "")` in order; in general
`parseOutputPaths` coincides with the specification reading of the grammar
(`specParseOutputPaths`): entries split on ';', trimmed, empty entries
dropped, and each remaining entry split at its first ':' into path and
override. -/
theorem c5_parseOutputPaths_grammar :
    parseOutputPaths "a;b:@/x;c" = [⟨"a", ""⟩, ⟨"b", "@/x"⟩, ⟨"c", ""⟩] ∧
    ∀ value, parseOutputPaths value = specParseOutputPaths value :=
  ⟨by decide, parseOutputPaths_eq_spec⟩

/-- Counterexample to claim C6 as stated: the entry `":x"` is non-empty after
trimming, so it is not dropped, yet its path segment (before the first ':')
is empty — the parser emits a target with an empty path. -/
theorem c6_empty_path_counterexample :
    parseOutputPaths ":x" = [⟨"", "x"⟩] ∧
    ¬(∀ t ∈ parseOutputPaths ":x", trimS t.path ≠ "") := by decide

/-- Claim C6 as amended: every produced `OutputPathConfig` has an already
trimmed path, and the path can be empty only when the target came from an
entry whose trimmed text begins with the override delimiter ':' (empty path
segment before the first colon). -/
theorem c6_path_nonempty_amended :
    ∀ (value : String) (t : OutputPathConfig), t ∈ parseOutputPaths value →
      t.path = trimS t.path ∧
      (t.path = "" →
        ∃ e ∈ splitOnCharS ';' value, parseOutputEntry e = some t ∧
          (trimS e).toList.head? = some ':') := by
  intro value t hmem
  rcases List.mem_filterMap.mp hmem with ⟨e, he, hpe⟩
  have hpe' := hpe
  rw [parseOutputEntry_eq_spec] at hpe'
  by_cases hps : trimS e = ""
  · rw [if_neg (by rw [bne_iff_ne]; exact fun hne => hne hps)] at hpe'
    exact absurd hpe' (by simp)
  · rw [if_pos (by rw [bne_iff_ne]; exact hps)] at hpe'
    injection hpe' with ht
    rcases head_of_trimS_ne hps with ⟨x, rest, hxl, hxws⟩
    unfold specSplitEntry at ht
    by_cases hc : (trimS e).toList.contains ':' = true
    · rw [if_pos hc] at ht
      constructor
      · rw [← ht]
        exact (trimS_idem _).symm
      · intro hpath
        refine ⟨e, he, hpe, ?_⟩
        rw [← ht] at hpath
        simp only at hpath
        have hall : ∀ c ∈ (trimS e).toList.takeWhile (fun c => c != ':'),
            c.isWhitespace = true := by
          rw [← trimChars_eq_nil_iff, ← trimS_eq_empty_iff]
          exact hpath
        by_cases hx : x = ':'
        · rw [hxl, hx, List.head?_cons]
        · exfalso
          have hxtake : x ∈ (trimS e).toList.takeWhile (fun c => c != ':') := by
            rw [hxl, List.takeWhile_cons, if_pos (by rw [bne_iff_ne]; exact hx)]
            exact List.mem_cons_self _ _
          rw [hall x hxtake] at hxws
          exact absurd hxws (by simp)
    · rw [if_neg hc] at ht
      constructor
      · rw [← ht]
        simp only
        rw [mk_toList]
        exact (trimS_idem _).symm
      · intro hpath
        exfalso
        rw [← ht] at hpath
        simp only at hpath
        rw [mk_toList] at hpath
        exact hps hpath

/-- Witness for C6 (amended) at the entry "a". -/
theorem c6_path_nonempty_amended_witness :
    (⟨"a", ""⟩ : OutputPathConfig).path = trimS (⟨"a", ""⟩ : OutputPathConfig).path ∧
    ((⟨"a", ""⟩ : OutputPathConfig).path = "" →
      ∃ e ∈ splitOnCharS ';' "a", parseOutputEntry e = some ⟨"a", ""⟩ ∧
        (trimS e).toList.head? = some ':') :=
  c6_path_nonempty_amended "a" ⟨"a", ""⟩ (by decide)

/-- Claim C7: the option parser is total and permissive. The empty string
yields the documented defaults (typed service import "./api", types root
"@/api/proto-types", unset untyped import, both target lists empty); a pair
without '=' is skipped; a pair with an unrecognized key is ignored; and for
every one of the five recognized keys, later occurrences overwrite earlier
ones: whatever pairs precede the last occurrence of a key (including earlier
occurrences of that same key) and whatever pairs follow it without setting
that key again, the resulting field is the value of that last occurrence. -/
theorem c7_parsePluginOptions_spec :
    parsePluginOptions "" = defaultPluginConfig ∧
    defaultPluginConfig = ⟨"./api", "", "@/api/proto-types", [], []⟩ ∧
    (∀ (c : PluginConfig) (pair : String), '=' ∉ pair.toList → applyOption c pair = c) ∧
    (∀ (c : PluginConfig) (pair k v : String), splitN2 '=' pair = [k, v] →
      trimS k ≠ "service_import" → trimS k ≠ "service_import_js" →
      trimS k ≠ "types_import_path" → trimS k ≠ "output_paths" →
      trimS k ≠ "output_paths_js" → applyOption c pair = c) ∧
    (∀ (ps qs : List String) (pair k v : String), splitN2 '=' pair = [k, v] →
      trimS k = "service_import" → (∀ q ∈ qs, setsKey "service_import" q = false) →
      ((ps ++ pair :: qs).foldl applyOption defaultPluginConfig).serviceImport = trimS v) ∧
    (∀ (ps qs : List String) (pair k v : String), splitN2 '=' pair = [k, v] →
      trimS k = "service_import_js" → (∀ q ∈ qs, setsKey "service_import_js" q = false) →
      ((ps ++ pair :: qs).foldl applyOption defaultPluginConfig).serviceImportJS = trimS v) ∧
    (∀ (ps qs : List String) (pair k v : String), splitN2 '=' pair = [k, v] →
      trimS k = "types_import_path" → (∀ q ∈ qs, setsKey "types_import_path" q = false) →
      ((ps ++ pair :: qs).foldl applyOption defaultPluginConfig).typesImportPath = trimS v) ∧
    (∀ (ps qs : List String) (pair k v : String), splitN2 '=' pair = [k, v] →
      trimS k = "output_paths" → (∀ q ∈ qs, setsKey "output_paths" q = false) →
      ((ps ++ pair :: qs).foldl applyOption defaultPluginConfig).outputPaths =
        parseOutputPaths (trimS v)) ∧
    (∀ (ps qs : List String) (pair k v : String), splitN2 '=' pair = [k, v] →
      trimS k = "output_paths_js" → (∀ q ∈ qs, setsKey "output_paths_js" q = false) →
      ((ps ++ pair :: qs).foldl applyOption defaultPluginConfig).outputPathsJS =
        parseOutputPaths (trimS v)) := by
  refine ⟨rfl, rfl, ?_, ?_, ?_, ?_, ?_, ?_, ?_⟩
  · intro c pair h
    exact applyOption_no_eq h
  · intro c pair k v hsplit h1 h2 h3 h4 h5
    exact applyOption_unknown hsplit h1 h2 h3 h4 h5
  · intro ps qs pair k v hsplit hk hqs
    rw [List.foldl_append, List.foldl_cons,
      foldl_applyOption_frame PluginConfig.serviceImport "service_import"
        (fun c q hq => (applyOption_frame c q).1 hq) qs hqs _,
      applyOption_service_import hsplit hk]
  · intro ps qs pair k v hsplit hk hqs
    rw [List.foldl_append, List.foldl_cons,
      foldl_applyOption_frame PluginConfig.serviceImportJS "service_import_js"
        (fun c q hq => (applyOption_frame c q).2.1 hq) qs hqs _,
      applyOption_service_import_js hsplit hk]
  · intro ps qs pair k v hsplit hk hqs
    rw [List.foldl_append, List.foldl_cons,
      foldl_applyOption_frame PluginConfig.typesImportPath "types_import_path"
        (fun c q hq => (applyOption_frame c q).2.2.1 hq) qs hqs _,
      applyOption_types_import_path hsplit hk]
  · intro ps qs pair k v hsplit hk hqs
    rw [List.foldl_append, List.foldl_cons,
      foldl_applyOption_frame PluginConfig.outputPaths "output_paths"
        (fun c q hq => (applyOption_frame c q).2.2.2.1 hq) qs hqs _,
      applyOption_output_paths hsplit hk]
  · intro ps qs pair k v hsplit hk hqs
    rw [List.foldl_append, List.foldl_cons,
      foldl_applyOption_frame PluginConfig.outputPathsJS "output_paths_js"
        (fun c q hq => (applyOption_frame c q).2.2.2.2 hq) qs hqs _,
      applyOption_output_paths_js hsplit hk]

/-- Witness for C7: a pair without '=' is skipped, an unknown key is
ignored, and for each of the five recognized keys the later occurrence wins
even with further (other-key) pairs after it. -/
theorem c7_parsePluginOptions_spec_witness :
    applyOption defaultPluginConfig "noequals" = defaultPluginConfig ∧
    applyOption defaultPluginConfig "unknown_key=1" = defaultPluginConfig ∧
    ((["service_import=a"] ++ "service_import=b" :: ["types_import_path=t"]).foldl
        applyOption defaultPluginConfig).serviceImport = trimS "b" ∧
    ((["service_import_js=a"] ++ "service_import_js=b" :: ["service_import=z"]).foldl
        applyOption defaultPluginConfig).serviceImportJS = trimS "b" ∧
    ((["types_import_path=a"] ++ "types_import_path=b" :: []).foldl
        applyOption defaultPluginConfig).typesImportPath = trimS "b" ∧
    ((["output_paths=a"] ++ "output_paths=b;c" :: ["output_paths_js=d"]).foldl
        applyOption defaultPluginConfig).outputPaths = parseOutputPaths (trimS "b;c") ∧
    ((["output_paths_js=a"] ++ "output_paths_js=b" :: ["output_paths=d"]).foldl
        applyOption defaultPluginConfig).outputPathsJS = parseOutputPaths (trimS "b") :=
  ⟨c7_parsePluginOptions_spec.2.2.1 defaultPluginConfig "noequals" (by decide),
    c7_parsePluginOptions_spec.2.2.2.1 defaultPluginConfig "unknown_key=1"
      "unknown_key" "1" (by decide) (by decide) (by decide) (by decide) (by decide)
      (by decide),
    c7_parsePluginOptions_spec.2.2.2.2.1 ["service_import=a"] ["types_import_path=t"]
      "service_import=b" "service_import" "b" (by decide) (by decide) (by decide),
    c7_parsePluginOptions_spec.2.2.2.2.2.1 ["service_import_js=a"] ["service_import=z"]
      "service_import_js=b" "service_import_js" "b" (by decide) (by decide) (by decide),
    c7_parsePluginOptions_spec.2.2.2.2.2.2.1 ["types_import_path=a"] []
      "types_import_path=b" "types_import_path" "b" (by decide) (by decide) (by decide),
    c7_parsePluginOptions_spec.2.2.2.2.2.2.2.1 ["output_paths=a"] ["output_paths_js=d"]
      "output_paths=b;c" "output_paths" "b;c" (by decide) (by decide) (by decide),
    c7_parsePluginOptions_spec.2.2.2.2.2.2.2.2 ["output_paths_js=a"] ["output_paths=d"]
      "output_paths_js=b" "output_paths_js" "b" (by decide) (by decide) (by decide)⟩

/-! ## Lemmas: the directory reset -/

theorem contains_eq_false_of_not_mem {α : Type} [BEq α] [LawfulBEq α] {l : List α} {a : α}
    (h : a ∉ l) : l.contains a = false := by
  cases hc : l.contains a
  · rfl
  · exact absurd ((contains_iff_mem l a).mp hc) h

theorem underOrEq_self (dir : String) : underOrEq dir dir = true := by
  unfold underOrEq
  simp

theorem not_mem_filter_not_under (l : List String) (dir : String) :
    dir ∉ l.filter (fun p => !underOrEq dir p) := by
  intro hmem
  have h := (List.mem_filter.mp hmem).2
  rw [underOrEq_self dir] at h
  exact absurd h (by simp)

theorem clearOutputDir_of_exists {fs : FS} {dir : String} (hd : dir ≠ "")
    (hex : statExists fs dir = true) :
    clearOutputDir fs dir =
      ⟨dir :: fs.dirs.filter (fun p => !underOrEq dir p),
        fs.files.filter (fun p => !underOrEq dir p)⟩ := by
  unfold clearOutputDir
  rw [if_neg hd, if_pos hex]
  unfold mkdirAll removeAll
  rw [if_neg (by
    rw [contains_eq_false_of_not_mem (not_mem_filter_not_under fs.dirs dir)]
    simp)]

/-- Claim C8: the directory reset is total and idempotent. On a non-existent
path it succeeds without changing the file system; on an existing directory
it leaves that directory existing and empty (no path strictly below it
remains); and a second application is a no-op: twice equals once, and the
second run cannot fail since the model is total. -/
theorem c8_clearOutputDir_spec :
    (∀ (fs : FS) (dir : String), statExists fs dir = false → clearOutputDir fs dir = fs) ∧
    (∀ (fs : FS) (dir : String), dir ≠ "" → statExists fs dir = true →
      (clearOutputDir fs dir).dirs.contains dir = true ∧
      ∀ p, underOrEq dir p = true → p ≠ dir →
        statExists (clearOutputDir fs dir) p = false) ∧
    (∀ (fs : FS) (dir : String),
      clearOutputDir (clearOutputDir fs dir) dir = clearOutputDir fs dir) := by
  refine ⟨?_, ?_, ?_⟩
  · intro fs dir h
    unfold clearOutputDir
    by_cases hd : dir = ""
    · rw [if_pos hd]
    · rw [if_neg hd, h]
      simp
  · intro fs dir hd hex
    rw [clearOutputDir_of_exists hd hex]
    constructor
    · exact (contains_iff_mem _ _).mpr (List.mem_cons_self _ _)
    · intro p hunder hne
      have h1 : (dir :: fs.dirs.filter (fun q => !underOrEq dir q)).contains p = false := by
        apply contains_eq_false_of_not_mem
        intro hm
        rcases List.mem_cons.mp hm with heq | htail
        · exact hne heq
        · have hq := (List.mem_filter.mp htail).2
          rw [hunder] at hq
          exact absurd hq (by simp)
      have h2 : (fs.files.filter (fun q => !underOrEq dir q)).contains p = false := by
        apply contains_eq_false_of_not_mem
        intro hm
        have hq := (List.mem_filter.mp hm).2
        rw [hunder] at hq
        exact absurd hq (by simp)
      unfold statExists
      rw [h1, h2]
      rfl
  · intro fs dir
    by_cases hd : dir = ""
    · unfold clearOutputDir
      rw [if_pos hd, if_pos hd]
    · by_cases hex : statExists fs dir = true
      · have h1 := clearOutputDir_of_exists hd hex
        have hex2 : statExists (clearOutputDir fs dir) dir = true := by
          rw [h1]
          unfold statExists
          rw [(contains_iff_mem _ _).mpr (List.mem_cons_self _ _)]
          rfl
        rw [clearOutputDir_of_exists hd hex2, h1]
        have hne : ¬((fun p => !underOrEq dir p) dir = true) := by
          show ¬(!underOrEq dir dir) = true
          rw [underOrEq_self dir]
          simp
        rw [@List.filter_cons_of_neg _ (fun p => !underOrEq dir p) dir _ hne,
          filter_idem, filter_idem]
      · have hfalse : statExists fs dir = false := by
          cases hval : statExists fs dir
          · rfl
          · exact absurd hval hex
        have h1 : clearOutputDir fs dir = fs := by
          unfold clearOutputDir
          rw [if_neg hd, hfalse]
          simp
        rw [h1]
        exact h1

/-- Witness for C8 on a concrete file system. -/
theorem c8_clearOutputDir_spec_witness :
    clearOutputDir ⟨["a"], []⟩ "zzz" = ⟨["a"], []⟩ ∧
    (clearOutputDir ⟨["a", "a/sub"], ["a/f.txt"]⟩ "a").dirs.contains "a" = true ∧
    statExists (clearOutputDir ⟨["a", "a/sub"], ["a/f.txt"]⟩ "a") "a/sub" = false ∧
    clearOutputDir (clearOutputDir ⟨["a", "a/sub"], ["a/f.txt"]⟩ "a") "a" =
      clearOutputDir ⟨["a", "a/sub"], ["a/f.txt"]⟩ "a" :=
  ⟨c8_clearOutputDir_spec.1 ⟨["a"], []⟩ "zzz" (by decide),
    (c8_clearOutputDir_spec.2.1 ⟨["a", "a/sub"], ["a/f.txt"]⟩ "a" (by decide) (by decide)).1,
    (c8_clearOutputDir_spec.2.1 ⟨["a", "a/sub"], ["a/f.txt"]⟩ "a" (by decide)
      (by decide)).2 "a/sub" (by decide) (by decide),
    c8_clearOutputDir_spec.2.2 ⟨["a", "a/sub"], ["a/f.txt"]⟩ "a"⟩

/-- Counterexample to claim C4 as stated: two bound methods whose request
types share the simple name `Foo` but live in `a.proto` and `b.proto`;
swapping the two methods (a permutation of the service's method list) changes
which file's binding survives the last-write-wins scan, so the import
grouping is not order-independent in general. -/
theorem c4_order_independence_counterexample :
    ([collideMethodA, collideMethodB] : List MethodDesc).Perm
      [collideMethodB, collideMethodA] ∧
    collectTypeImports [collideMethodA, collideMethodB] ["MethodA", "MethodB"] ≠
      collectTypeImports [collideMethodB, collideMethodA] ["MethodA", "MethodB"] := by
  decide

/-- Claim C4 as amended: the import grouping is canonical — every group's
name list is duplicate-free and lexicographically sorted and the groups are
emitted sorted by import path (both unconditionally) — and it is
order-independent provided no two recorded (type name, file) pairs disagree
on the file of one simple name, i.e. in the absence of the cross-file
simple-name collision exhibited by the counterexample: under that hypothesis
any permutation of the method list yields an identical grouping. -/
theorem c4_collectTypeImports_canonical :
    (∀ (ms1 ms2 : List MethodDesc) (bnd : List String),
      ms1.Perm ms2 →
      (∀ p ∈ typePairs ms1 bnd, ∀ q ∈ typePairs ms1 bnd, p.1 = q.1 → p.2 = q.2) →
      collectTypeImports ms1 bnd = collectTypeImports ms2 bnd) ∧
    (∀ (ms : List MethodDesc) (bnd : List String),
      ((collectTypeImports ms bnd).map Prod.fst).Sorted strLe ∧
      ((collectTypeImports ms bnd).map Prod.fst).Nodup) ∧
    (∀ (ms : List MethodDesc) (bnd : List String) (g : String × List String),
      g ∈ collectTypeImports ms bnd → g.2.Sorted strLe ∧ g.2.Nodup) := by
  refine ⟨?_, ?_, ?_⟩
  · intro ms1 ms2 bnd hperm hfun
    have hfun2 : ∀ p ∈ typePairs ms2 bnd, ∀ q ∈ typePairs ms2 bnd,
        p.1 = q.1 → p.2 = q.2 := by
      intro p hp q hq
      exact hfun p ((typePairs_mem_iff_of_perm hperm p).mpr hp)
        q ((typePairs_mem_iff_of_perm hperm q).mpr hq)
    unfold collectTypeImports
    apply importGroups_congr
    intro x
    rw [typeFileMap_mem_iff ms1 bnd hfun x, typeFileMap_mem_iff ms2 bnd hfun2 x]
    exact typePairs_mem_iff_of_perm hperm x
  · intro ms bnd
    unfold collectTypeImports
    rw [fst_importGroups]
    exact ⟨sorted_uniqueAndSort _, nodup_uniqueAndSort _⟩
  · intro ms bnd g hg
    unfold collectTypeImports at hg
    have hnames := (mem_importGroups hg).2
    rw [hnames]
    exact ⟨sorted_uniqueAndSort _, nodup_uniqueAndSort _⟩

/-- Witness for C4 (amended): two collision-free methods swapped yield the
identical grouping. -/
theorem c4_collectTypeImports_canonical_witness :
    collectTypeImports [getUserMethod, collideMethodA] ["GetUser", "MethodA"] =
      collectTypeImports [collideMethodA, getUserMethod] ["GetUser", "MethodA"] :=
  c4_collectTypeImports_canonical.1 [getUserMethod, collideMethodA]
    [collideMethodA, getUserMethod] ["GetUser", "MethodA"] (by decide) (by decide)

/-- Claim C10: the type-import collector keys collected types by their simple
(unqualified) name, so within one service every type name appears in at most
one import group; concretely, with `Foo` declared in both `a.proto` (method
`MethodA`) and `b.proto` (method `MethodB`), only the file of the last
recorded binding survives (`b.proto` when `MethodB` is scanned last,
`a.proto` when `MethodA` is), and the other file's group carries no entry
for `Foo`. -/
theorem c10_simple_name_keying :
    (∀ (ms : List MethodDesc) (bnd : List String) (n : String)
      (g1 g2 : String × List String),
      g1 ∈ collectTypeImports ms bnd → g2 ∈ collectTypeImports ms bnd →
      n ∈ g1.2 → n ∈ g2.2 → g1.1 = g2.1) ∧
    collectTypeImports [collideMethodA, collideMethodB] ["MethodA", "MethodB"] =
      [("a", ["ARes"]), ("b", ["BRes", "Foo"])] ∧
    collectTypeImports [collideMethodB, collideMethodA] ["MethodA", "MethodB"] =
      [("a", ["ARes", "Foo"]), ("b", ["BRes"])] := by
  refine ⟨?_, by decide, by decide⟩
  intro ms bnd n g1 g2 h1 h2 hn1 hn2
  unfold collectTypeImports at h1 h2
  have hl1 := (mem_importGroups h1).2
  have hl2 := (mem_importGroups h2).2
  rw [hl1] at hn1
  rw [hl2] at hn2
  rcases mem_groupNames.mp hn1 with ⟨f1, hf1, hp1⟩
  rcases mem_groupNames.mp hn2 with ⟨f2, hf2, hp2⟩
  have hnd := nodupKeys_typeFileMap ms bnd
  have hk1 := lookupKey_eq_some_of_mem hnd hf1
  have hk2 := lookupKey_eq_some_of_mem hnd hf2
  rw [hk1] at hk2
  injection hk2 with hf
  rw [← hp1, ← hp2, hf]

/-- Witness for C10 (general part) at a concrete grouping. -/
theorem c10_simple_name_keying_witness :
    (("b", ["BRes", "Foo"]) : String × List String).1 =
      (("b", ["BRes", "Foo"]) : String × List String).1 :=
  c10_simple_name_keying.1 [collideMethodA, collideMethodB] ["MethodA", "MethodB"]
    "Foo" ("b", ["BRes", "Foo"]) ("b", ["BRes", "Foo"])
    (by decide) (by decide) (by decide) (by decide)
